import Mathlib

/-!
Verification development for the 2023 day05 seed-to-location mapping engine
(`src/2023/day05/src/main.rs`).

Shallow embedding conventions:
* Rust `u64` values are modelled as `Nat`, with an explicit `% 2 ^ 64` at the
  arithmetic operations where the Rust code can overflow (range-end computation
  in `Mapping::from_str`, the offset addition in `Map::lookup`).
* Rust `&str` is modelled as `String`; the string scanning primitives
  (`split`, `split_ascii_whitespace`, `starts_with`, `ends_with`,
  `str::parse::<u64>`) are implemented on the underlying character list.
* `anyhow::Error` values are modelled by the structured type `DayError`,
  one constructor per distinct error site of the source.
* The unbounded `loop` in `Mappings::lookup_seed_location` is modelled with
  explicit fuel: `none` means the loop has not terminated within the given
  fuel, `some r` means it returned `r` (and by fuel monotonicity any larger
  fuel returns the same `r`).
-/

/-- Structured model of the `anyhow!` error values of day05. -/
inductive DayError where
  /-- Rust: `anyhow!("No map for source '{key}'")` in `lookup_seed_location`. -/
  | noMap (key : String)
  /-- Rust: `anyhow!("Mapping must have 3 parts")` in `Mapping::from_str`. -/
  | badMappingParts
  /-- Rust: a token of a mapping line failed `parse::<u64>()`. -/
  | badMappingNumber (tok : String)
  /-- Rust: `anyhow!("Line must start with 'seeds: '")` in `read_seeds`. -/
  | badSeedsLine
  /-- Rust: a seed token failed `parse::<u64>()` in `read_seeds`. -/
  | badSeedNumber (tok : String)
  /-- Rust: `anyhow!("Map header must end with ' map:'")` in `parse_map_header`. -/
  | badHeaderEnd
  /-- Rust: `anyhow!("Map header must be in the format ...")` in `parse_map_header`. -/
  | badHeaderFormat
  /-- Rust: `anyhow!("No seeds")` in `find_seed_with_smallest_location`. -/
  | noSeeds
deriving DecidableEq, Repr

/-- Rust's `char::is_ascii_whitespace`: space, tab, newline, form feed (0x0C),
carriage return. -/
def isAsciiWhitespaceChar (c : Char) : Bool :=
  decide (c = ' ') || decide (c = '\t') || decide (c = '\n') ||
  decide (c = Char.ofNat 12) || decide (c = '\r')

/-- Split a character list at every character satisfying `p`, keeping empty
pieces, exactly like Rust's `str::split` (the result is never empty). -/
def splitPred (p : Char → Bool) : List Char → List (List Char)
  | [] => [[]]
  | x :: xs =>
    if p x then [] :: splitPred p xs
    else
      match splitPred p xs with
      | [] => [[x]]
      | t :: ts => (x :: t) :: ts

/-- Rust's `str::split(c)` on the character list of a string. -/
def splitOnChar (c : Char) (l : List Char) : List (List Char) :=
  splitPred (fun x => decide (x = c)) l

/-- Rust's `str::split_ascii_whitespace`: split at ASCII whitespace and drop
all empty pieces. -/
def split_ascii_whitespace (l : List Char) : List (List Char) :=
  (splitPred isAsciiWhitespaceChar l).filter (fun t => !t.isEmpty)

/-- Accumulator loop for decimal digit parsing. `none` on the first
non-digit character. -/
def parseDigitsAux : List Char → Nat → Option Nat
  | [], acc => some acc
  | c :: cs, acc =>
    if c.isDigit then parseDigitsAux cs (acc * 10 + (c.toNat - 48)) else none

/-- The digit part of u64 parsing: one or more decimal digits whose value is
below `2 ^ 64`; anything else is a parse failure. -/
def parseU64Body : List Char → Option Nat
  | [] => none
  | cs =>
    match parseDigitsAux cs 0 with
    | none => none
    | some n => if n < 2 ^ 64 then some n else none

/-- Rust's `str::parse::<u64>()`: an optional leading `+`, then one or more
decimal digits, value below `2 ^ 64`; anything else is a parse failure. -/
def parseU64 : List Char → Option Nat
  | '+' :: rest => parseU64Body rest
  | cs => parseU64Body cs

/-- Rust's `str::starts_with` for a literal prefix, on character lists
(first argument is the pattern). -/
def startsWithList : List Char → List Char → Bool
  | [], _ => true
  | _ :: _, [] => false
  | p :: ps, x :: xs => decide (x = p) && startsWithList ps xs

/-- Rust's `str::ends_with` for a literal suffix, on character lists
(first argument is the pattern). -/
def endsWithList (pat l : List Char) : Bool :=
  decide (pat.length ≤ l.length ∧ l.drop (l.length - pat.length) = pat)

/-- Rust struct `Mapping { source: Range<u64>, destination_start: u64 }`;
the range is stored by its two endpoints, as in the source. -/
structure Mapping where
  source_start : Nat
  source_end : Nat
  destination_start : Nat
deriving DecidableEq, Repr

/-- Rust `Range::<u64>::contains`: `source_start <= v && v < source_end`. -/
def Mapping.contains (m : Mapping) (v : Nat) : Bool :=
  decide (m.source_start ≤ v) && decide (v < m.source_end)

/-- Rust struct `Map { source, destination, mappings }`. -/
structure Map where
  source : String
  destination : String
  mappings : List Mapping
deriving DecidableEq

/-- Rust `Map::lookup`: first range mapping (in declaration order) containing
the value wins; unmapped values pass through unchanged. The offset addition is
the u64 sum of the source, hence the `% 2 ^ 64`. Total: never fails. -/
def Map.lookup (m : Map) (source : Nat) : Nat :=
  match m.mappings.find? (fun mapping => mapping.contains source) with
  | some mapping => (mapping.destination_start + (source - mapping.source_start)) % 2 ^ 64
  | none => source

/-- Rust `Mappings(HashMap<String, Map>)`, modelled as an association list
from source-category key to table (keys are unique in the program, so
first-match retrieval models `HashMap::get`). -/
abbrev Mappings := List (String × Map)

/-- `HashMap::get`: the table stored under `key`, if any. -/
def Mappings.get : Mappings → String → Option Map
  | [], _ => none
  | (k, m) :: rest, key => if k = key then some m else Mappings.get rest key

/-- Rust `Mappings::lookup_seed_location`'s `loop`, with explicit fuel.
`none` means the loop did not terminate within `fuel` iterations. Each
iteration: look up the table for the current category (error `noMap` if
absent), apply its `lookup` to the current value, move to its destination
category, and return the value once that category is `"location"`. -/
def lookupLocationFuel (ms : Mappings) : Nat → String → Nat → Option (Except DayError Nat)
  | 0, _, _ => none
  | fuel + 1, key, value =>
    match ms.get key with
    | none => some (.error (.noMap key))
    | some map =>
      if map.destination = "location" then some (.ok (map.lookup value))
      else lookupLocationFuel ms fuel map.destination (map.lookup value)

/-- Rust `Mappings::lookup_seed_location`: the loop started at category
`"seed"`, with the given fuel bound. -/
def lookup_seed_location (ms : Mappings) (fuel : Nat) (seed : Nat) : Option (Except DayError Nat) :=
  lookupLocationFuel ms fuel "seed" seed

/-- The `for seed in seeds.iter().skip(1)` loop of
`find_seed_with_smallest_location`: `smallest` is the running
(seed, location) pair, updated on strict `<` only. -/
def find_loop (ms : Mappings) (fuel : Nat) : List Nat → Nat × Nat → Option (Except DayError Nat)
  | [], smallest => some (.ok smallest.1)
  | seed :: rest, smallest =>
    match lookup_seed_location ms fuel seed with
    | none => none
    | some (.error e) => some (.error e)
    | some (.ok location) =>
      if location < smallest.2 then find_loop ms fuel rest (seed, location)
      else find_loop ms fuel rest smallest

/-- Rust `find_seed_with_smallest_location`: errors with `noSeeds` on the
empty list, otherwise seeds the running minimum with the first candidate and
runs the loop; returns the winning seed (not its location). -/
def find_seed_with_smallest_location (ms : Mappings) (fuel : Nat) (seeds : List Nat) :
    Option (Except DayError Nat) :=
  match seeds with
  | [] => some (.error .noSeeds)
  | s0 :: rest =>
    match lookup_seed_location ms fuel s0 with
    | none => none
    | some (.error e) => some (.error e)
    | some (.ok location) => find_loop ms fuel rest (s0, location)

/-- Rust `Mapping::from_str`: exactly three whitespace-separated `u64`
tokens (destination start, source start, length); the stored range end is
the u64 sum `source_start + length`, hence the `% 2 ^ 64` (the source adds
with no overflow check). -/
def Mapping.from_str (s : String) : Except DayError Mapping :=
  match split_ascii_whitespace s.data with
  | [p0, p1, p2] =>
    match parseU64 p0 with
    | none => .error (.badMappingNumber (String.mk p0))
    | some destination_start =>
      match parseU64 p1 with
      | none => .error (.badMappingNumber (String.mk p1))
      | some source_start =>
        match parseU64 p2 with
        | none => .error (.badMappingNumber (String.mk p2))
        | some length =>
          .ok ⟨source_start, (source_start + length) % 2 ^ 64, destination_start⟩
  | _ => .error .badMappingParts

/-- The token-parsing loop of `read_seeds`: first bad token wins. -/
def readSeedTokens : List (List Char) → Except DayError (List Nat)
  | [] => .ok []
  | tok :: rest =>
    match parseU64 tok with
    | none => .error (.badSeedNumber (String.mk tok))
    | some n =>
      match readSeedTokens rest with
      | .error e => .error e
      | .ok ns => .ok (n :: ns)

/-- Rust `read_seeds`: requires the literal `"seeds: "` line start, then
parses the whitespace-separated remainder as `u64` seeds. -/
def read_seeds (line : String) : Except DayError (List Nat) :=
  if startsWithList ("seeds: ".data) line.data then
    readSeedTokens (split_ascii_whitespace (line.data.drop 7))
  else .error .badSeedsLine

/-- Rust `parse_map_header`: requires the `" map:"` suffix, strips it,
splits the rest on `-`, and requires exactly three pieces with middle
`"to"`; returns (source, destination). -/
def parse_map_header (line : String) : Except DayError (String × String) :=
  if endsWithList (" map:".data) line.data then
    match splitOnChar '-' (line.data.take (line.data.length - (" map:".data).length)) with
    | [p0, p1, p2] =>
      if p1 = "to".data then .ok (String.mk p0, String.mk p2)
      else .error .badHeaderFormat
    | _ => .error .badHeaderFormat
  else .error .badHeaderEnd

/-- The single-stage chain of the reference example: only a seed-to-soil
table with ranges `[98,100) → 50` and `[50,98) → 52`. -/
def singleStageMap : Map := ⟨"seed", "soil", [⟨98, 100, 50⟩, ⟨50, 98, 52⟩]⟩

/-- The single-stage chain holding only `singleStageMap`. -/
def singleStage : Mappings := [("seed", singleStageMap)]

/-- The full seven-stage reference chain, transcribed from the tables of the
`test_lookup_seed_location` test of the source. -/
def fullChain : Mappings := [
  ("seed", ⟨"seed", "soil", [⟨98, 100, 50⟩, ⟨50, 98, 52⟩]⟩),
  ("soil", ⟨"soil", "fertilizer", [⟨15, 52, 0⟩, ⟨52, 54, 37⟩, ⟨0, 15, 39⟩]⟩),
  ("fertilizer", ⟨"fertilizer", "water", [⟨53, 61, 49⟩, ⟨11, 53, 0⟩, ⟨0, 7, 42⟩, ⟨7, 11, 57⟩]⟩),
  ("water", ⟨"water", "light", [⟨18, 25, 88⟩, ⟨25, 95, 18⟩]⟩),
  ("light", ⟨"light", "temperature", [⟨77, 100, 45⟩, ⟨45, 64, 81⟩, ⟨64, 77, 68⟩]⟩),
  ("temperature", ⟨"temperature", "humidity", [⟨69, 70, 0⟩, ⟨0, 69, 1⟩]⟩),
  ("humidity", ⟨"humidity", "location", [⟨56, 93, 60⟩, ⟨93, 97, 56⟩]⟩)]

/-- A chain whose destination pointers cycle (`seed → soil → seed → ...`)
without ever reaching `"location"`; every category on the cycle has a table. -/
def cyclicChain : Mappings :=
  [("seed", ⟨"seed", "soil", []⟩), ("soil", ⟨"soil", "seed", []⟩)]

/-- A minimal well-formed chain (`seed → location`, identity lookup), used to
instantiate theorems with hypotheses on concrete resolving inputs. -/
def oneStep : Mappings := [("seed", ⟨"seed", "location", []⟩)]

/-- The resolution loop exactly as the spec describes it, as an inductive
relation: from the current category, either no table exists (unknown-category
error naming it), or the table's lookup is applied and the walk ends
successfully exactly when the new category is `"location"`. -/
inductive ResolveSpec (ms : Mappings) : String → Nat → Except DayError Nat → Prop where
  | unknown (key : String) (v : Nat) (h : ms.get key = none) :
      ResolveSpec ms key v (.error (.noMap key))
  | reached (key : String) (v : Nat) (m : Map) (h : ms.get key = some m)
      (hdest : m.destination = "location") :
      ResolveSpec ms key v (.ok (m.lookup v))
  | next (key : String) (v : Nat) (m : Map) (r : Except DayError Nat)
      (h : ms.get key = some m) (hdest : m.destination ≠ "location")
      (hrec : ResolveSpec ms m.destination (m.lookup v) r) :
      ResolveSpec ms key v r

/-- The category traversal of the chain from the spec's state-machine view:
`catIter ms n key` is the category reached after `n` table hops from `key`,
or `none` if a category with no table is entered strictly before hop `n`. -/
def catIter (ms : Mappings) : Nat → String → Option String
  | 0, key => some key
  | n + 1, key =>
    match ms.get key with
    | none => none
    | some m => catIter ms n m.destination

/-- Pure reference form of the running-minimum loop: fold the candidate list,
replacing the accumulator `(seed, location)` only on strictly smaller
location (`f` gives each candidate's location). -/
def minAcc (f : Nat → Nat) : List Nat → Nat × Nat → Nat × Nat
  | [], acc => acc
  | s :: rest, acc =>
    if f s < acc.2 then minAcc f rest (s, f s) else minAcc f rest acc

/-- Interleave the separator character back between split pieces
(left inverse of `splitOnChar`). -/
def joinParts (c : Char) : List (List Char) → List Char
  | [] => []
  | [p] => p
  | p :: ps => p ++ c :: joinParts c ps

/-- Number of occurrences of `pat` as a substring of `l` (all start
positions counted). -/
def countSubstr (pat l : List Char) : Nat :=
  ((List.range (l.length + 1)).filter (fun i => startsWithList pat (l.drop i))).length

/-- Modelled from the spec: the header-acceptance condition as the spec words
it — the line has the form `"<source>-to-<destination> map:"` and contains
exactly one `"-to-"` separator. -/
def headerSpecForm (line : String) : Prop :=
  ∃ s d : String, line = s ++ "-to-" ++ d ++ " map:" ∧
    countSubstr ("-to-".data) line.data = 1

/-- Soundness half of the loop model: a result produced within some fuel is a
result of the resolution loop as the spec describes it. -/
theorem lookupLocationFuel_sound (ms : Mappings) :
    ∀ fuel key v r, lookupLocationFuel ms fuel key v = some r → ResolveSpec ms key v r := by
  intro fuel
  induction fuel with
  | zero => intro key v r h; simp [lookupLocationFuel] at h
  | succ n ih =>
    intro key v r h
    unfold lookupLocationFuel at h
    cases hg : ms.get key with
    | none =>
      simp only [hg, Option.some.injEq] at h
      exact h ▸ ResolveSpec.unknown key v hg
    | some m =>
      simp only [hg] at h
      by_cases hd : m.destination = "location"
      · rw [if_pos hd] at h
        simp only [Option.some.injEq] at h
        exact h ▸ ResolveSpec.reached key v m hg hd
      · rw [if_neg hd] at h
        exact ResolveSpec.next key v m r hg hd (ih _ _ _ h)

/-- Completeness half of the loop model: every result of the spec's resolution
loop is produced by the code within some fuel. -/
theorem lookupLocationFuel_complete (ms : Mappings) :
    ∀ key v r, ResolveSpec ms key v r → ∃ fuel, lookupLocationFuel ms fuel key v = some r := by
  intro key v r h
  induction h with
  | unknown key v hg => exact ⟨1, by simp [lookupLocationFuel, hg]⟩
  | reached key v m hg hd => exact ⟨1, by simp [lookupLocationFuel, hg, hd]⟩
  | next key v m r hg hd hrec ih =>
    obtain ⟨fuel, hf⟩ := ih
    exact ⟨fuel + 1, by simp [lookupLocationFuel, hg, hd, hf]⟩

/-- C2: `lookup_seed_location` starting from category "seed" repeatedly looks
up the table for the current category (failing with the unknown-category error
naming it if absent), replaces the value by that table's lookup and the
category by that table's destination, and returns the value successfully
exactly when the new category is "location" — stated as: its fueled
implementation produces exactly the results of the spec's loop relation. -/
theorem lookup_seed_location_spec_iff (ms : Mappings) (v : Nat) (r : Except DayError Nat) :
    (∃ fuel, lookup_seed_location ms fuel v = some r) ↔ ResolveSpec ms "seed" v r := by
  constructor
  · rintro ⟨fuel, h⟩
    exact lookupLocationFuel_sound ms fuel "seed" v r h
  · intro h
    exact lookupLocationFuel_complete ms "seed" v r h

/-- Witness for C2 at a concrete chain: the one-step chain resolves seed 7 to
location 7. -/
theorem lookup_seed_location_spec_iff_witness : ResolveSpec oneStep "seed" 7 (.ok 7) :=
  (lookup_seed_location_spec_iff oneStep 7 (.ok 7)).mp ⟨1, rfl⟩

/-- If the fueled loop returns, the category traversal reaches "location" or a
category with no table. -/
theorem lookupLocationFuel_some_reaches (ms : Mappings) :
    ∀ fuel key v r, lookupLocationFuel ms fuel key v = some r →
      ∃ n k, catIter ms n key = some k ∧ (k = "location" ∨ ms.get k = none) := by
  intro fuel
  induction fuel with
  | zero => intro key v r h; simp [lookupLocationFuel] at h
  | succ n ih =>
    intro key v r h
    unfold lookupLocationFuel at h
    cases hg : ms.get key with
    | none => exact ⟨0, key, rfl, Or.inr hg⟩
    | some m =>
      simp only [hg] at h
      by_cases hd : m.destination = "location"
      · exact ⟨1, "location", by simp [catIter, hg, hd], Or.inl rfl⟩
      · rw [if_neg hd] at h
        obtain ⟨n', k, hc, hk⟩ := ih _ _ _ h
        exact ⟨n' + 1, k, by simp [catIter, hg, hc], hk⟩

/-- If the category traversal from a non-terminal category reaches "location"
or a category with no table, the fueled loop returns within some fuel. -/
theorem reaches_lookupLocationFuel_some (ms : Mappings) :
    ∀ n key, key ≠ "location" → ∀ k, catIter ms n key = some k →
      (k = "location" ∨ ms.get k = none) → ∀ v,
      ∃ fuel r, lookupLocationFuel ms fuel key v = some r := by
  intro n
  induction n with
  | zero =>
    intro key hkey k hc hk v
    simp only [catIter, Option.some.injEq] at hc
    subst hc
    cases hk with
    | inl h => exact absurd h hkey
    | inr h => exact ⟨1, .error (.noMap key), by simp [lookupLocationFuel, h]⟩
  | succ n ih =>
    intro key hkey k hc hk v
    unfold catIter at hc
    cases hg : ms.get key with
    | none => rw [hg] at hc; exact Option.noConfusion hc
    | some m =>
      rw [hg] at hc
      by_cases hd : m.destination = "location"
      · exact ⟨1, .ok (m.lookup v), by simp [lookupLocationFuel, hg, hd]⟩
      · obtain ⟨fuel, r, hf⟩ := ih m.destination hd k hc hk (m.lookup v)
        exact ⟨fuel + 1, r, by simp [lookupLocationFuel, hg, hd, hf]⟩

/-- On the cyclic chain, the loop never returns from either of the two
categories on the cycle, for any fuel. -/
theorem cyclicChain_no_result (fuel : Nat) :
    ∀ v, lookupLocationFuel cyclicChain fuel "seed" v = none ∧
      lookupLocationFuel cyclicChain fuel "soil" v = none := by
  induction fuel with
  | zero => intro v; exact ⟨rfl, rfl⟩
  | succ n ih =>
    intro v
    refine ⟨?_, ?_⟩
    · show lookupLocationFuel cyclicChain n "soil" v = none
      exact (ih v).2
    · show lookupLocationFuel cyclicChain n "seed" v = none
      exact (ih v).1

/-- C4: the resolution loop has no cycle guard — on a chain whose destination
pointers cycle it never returns, for any fuel; and in general it returns
(success or unknown-category error) exactly when the category traversal from
"seed" reaches "location" or a category with no declared table in finitely
many hops. -/
theorem lookup_seed_location_termination :
    (∀ fuel v, lookupLocationFuel cyclicChain fuel "seed" v = none) ∧
    (∀ (ms : Mappings) (v : Nat),
      (∃ fuel r, lookupLocationFuel ms fuel "seed" v = some r) ↔
      (∃ n k, catIter ms n "seed" = some k ∧ (k = "location" ∨ ms.get k = none))) := by
  refine ⟨fun fuel v => (cyclicChain_no_result fuel v).1, fun ms v => ⟨?_, ?_⟩⟩
  · rintro ⟨fuel, r, h⟩
    exact lookupLocationFuel_some_reaches ms fuel "seed" v r h
  · rintro ⟨n, k, hc, hk⟩
    exact reaches_lookupLocationFuel_some ms n "seed" (by decide) k hc hk v

/-- On the single-stage chain, any resolution from category "soil" can only be
the unknown-category error for "soil". -/
theorem singleStage_soil_inversion (v : Nat) (r : Except DayError Nat)
    (h : ResolveSpec singleStage "soil" v r) : r = .error (.noMap "soil") := by
  cases h with
  | unknown => rfl
  | reached _ _ m hg _ =>
    rw [show Mappings.get singleStage "soil" = none from rfl] at hg
    exact Option.noConfusion hg
  | next _ _ m r hg _ _ =>
    rw [show Mappings.get singleStage "soil" = none from rfl] at hg
    exact Option.noConfusion hg

/-- On the single-stage chain, any resolution from category "seed" can only be
the unknown-category error for "soil". -/
theorem singleStage_seed_inversion (v : Nat) (r : Except DayError Nat)
    (h : ResolveSpec singleStage "seed" v r) : r = .error (.noMap "soil") := by
  cases h with
  | unknown _ _ hg =>
    rw [show Mappings.get singleStage "seed" = some singleStageMap from rfl] at hg
    exact Option.noConfusion hg
  | reached _ _ m hg hdest =>
    have hm : singleStageMap = m := by
      have := (show Mappings.get singleStage "seed" = some singleStageMap from rfl).symm.trans hg
      exact Option.some.inj this
    rw [← hm] at hdest
    exact absurd hdest (by decide)
  | next _ _ m r hg hdest hrec =>
    have hm : singleStageMap = m := by
      have := (show Mappings.get singleStage "seed" = some singleStageMap from rfl).symm.trans hg
      exact Option.some.inj this
    rw [← hm] at hrec
    exact singleStage_soil_inversion _ _ hrec

/-- C5 counterexample: on the single-stage chain (only the seed-to-soil
table), resolving seed 79 does not return 81 — the walk leaves "seed" for
"soil" (value 81) and then fails with the unknown-category error for "soil",
since no table has source "soil" and "soil" is not "location". -/
theorem single_stage_resolve_not_81 :
    ResolveSpec singleStage "seed" 79 (.error (.noMap "soil")) ∧
    ¬ ResolveSpec singleStage "seed" 79 (.ok 81) := by
  refine ⟨ResolveSpec.next "seed" 79 singleStageMap _ rfl (by decide)
      (ResolveSpec.unknown "soil" 81 rfl), fun h => ?_⟩
  exact Except.noConfusion (singleStage_seed_inversion 79 _ h)

/-- C5 amended: on the single-stage chain, resolve("seed", 79) fails with the
unknown-category error for "soil" (the table itself maps 79 to 81); on the
full seven-stage reference chain, resolve maps seed 79 to location 82,
14 to 43, 55 to 86, and 13 to 35. -/
theorem example_chain_values :
    lookup_seed_location singleStage 2 79 = some (.error (.noMap "soil"))
    ∧ singleStageMap.lookup 79 = 81
    ∧ lookup_seed_location fullChain 8 79 = some (.ok 82)
    ∧ lookup_seed_location fullChain 8 14 = some (.ok 43)
    ∧ lookup_seed_location fullChain 8 55 = some (.ok 86)
    ∧ lookup_seed_location fullChain 8 13 = some (.ok 35) :=
  ⟨rfl, rfl, rfl, rfl, rfl, rfl⟩

/-- C10: the line "seeds: " (no numeric tokens) is accepted by `read_seeds`
and yields the empty candidate list; the empty-candidate condition is only
reported by `find_seed_with_smallest_location`, which fails with the
no-candidates error on the empty list. -/
theorem read_seeds_empty_then_noSeeds :
    read_seeds "seeds: " = .ok []
    ∧ ∀ (ms : Mappings) (fuel : Nat),
        find_seed_with_smallest_location ms fuel [] = some (.error .noSeeds) :=
  ⟨rfl, fun _ _ => rfl⟩

/-- `find?` on a decomposition whose prefix has no match returns the first
matching element. -/
theorem find?_append_first {α : Type} (p : α → Bool) (l₁ l₂ : List α) (a : α)
    (ha : p a = true) (hl₁ : ∀ x ∈ l₁, p x = false) :
    (l₁ ++ a :: l₂).find? p = some a := by
  induction l₁ with
  | nil => simp [List.find?_cons_of_pos, ha]
  | cons x xs ih =>
    have hx := hl₁ x (List.mem_cons_self x xs)
    rw [List.cons_append, List.find?_cons_of_neg _ (by simp [hx])]
    exact ih fun y hy => hl₁ y (List.mem_cons_of_mem x hy)

/-- C3: `Map.lookup` is total and returns the u64 value
`destination_start + (v - source_start)` of the first range mapping in
declaration order whose half-open source interval contains `v` (so on
overlap the first-declared range wins), and returns `v` itself when no
range contains it. -/
theorem map_lookup_first_match (m : Map) (v : Nat) :
    ((∀ mp ∈ m.mappings, mp.contains v = false) → m.lookup v = v)
    ∧ (∀ (l₁ : List Mapping) (mp : Mapping) (l₂ : List Mapping),
        m.mappings = l₁ ++ mp :: l₂ → mp.contains v = true →
        (∀ mp2 ∈ l₁, mp2.contains v = false) →
        m.lookup v = (mp.destination_start + (v - mp.source_start)) % 2 ^ 64) := by
  constructor
  · intro hall
    have hnone : m.mappings.find? (fun mp => mp.contains v) = none :=
      List.find?_eq_none.mpr fun x hx => by simp [hall x hx]
    unfold Map.lookup
    rw [hnone]
  · intro l₁ mp l₂ hsplit hmp hpre
    unfold Map.lookup
    rw [hsplit, find?_append_first _ l₁ l₂ mp hmp hpre]

/-- Witness for C3 at concrete tables: with two overlapping ranges over
`[50, 98)` the first-declared one maps 79, and an uncontained value passes
through unchanged. -/
theorem map_lookup_first_match_witness :
    Map.lookup ⟨"a", "b", [⟨50, 98, 52⟩, ⟨50, 98, 500⟩]⟩ 79 = (52 + (79 - 50)) % 2 ^ 64
    ∧ Map.lookup ⟨"a", "b", [⟨50, 98, 52⟩]⟩ 14 = 14 :=
  ⟨(map_lookup_first_match ⟨"a", "b", [⟨50, 98, 52⟩, ⟨50, 98, 500⟩]⟩ 79).2
      [] ⟨50, 98, 52⟩ [⟨50, 98, 500⟩] rfl (by decide) (by simp),
   (map_lookup_first_match ⟨"a", "b", [⟨50, 98, 52⟩]⟩ 14).1 (by decide)⟩

/-- The seed loop, under the hypothesis that every candidate resolves,
computes the pure running-minimum fold `minAcc`. -/
theorem find_loop_eq_minAcc (ms : Mappings) (fuel : Nat) (f : Nat → Nat) :
    ∀ (rest : List Nat) (acc : Nat × Nat),
      (∀ s ∈ rest, lookup_seed_location ms fuel s = some (.ok (f s))) →
      find_loop ms fuel rest acc = some (.ok (minAcc f rest acc).1) := by
  intro rest
  induction rest with
  | nil => intro acc _; rfl
  | cons s rest ih =>
    intro acc hres
    have hs := hres s (List.mem_cons_self s rest)
    simp only [find_loop, hs, minAcc]
    by_cases hlt : f s < acc.2
    · rw [if_pos hlt, if_pos hlt]
      exact ih (s, f s) fun x hx => hres x (List.mem_cons_of_mem s hx)
    · rw [if_neg hlt, if_neg hlt]
      exact ih acc fun x hx => hres x (List.mem_cons_of_mem s hx)

/-- The running-minimum fold's final location is a lower bound of the
accumulator's location and of every candidate's location. -/
theorem minAcc_snd_min (f : Nat → Nat) :
    ∀ (l : List Nat) (acc : Nat × Nat),
      (minAcc f l acc).2 ≤ acc.2 ∧ ∀ s ∈ l, (minAcc f l acc).2 ≤ f s := by
  intro l
  induction l with
  | nil => intro acc; exact ⟨le_refl _, by simp⟩
  | cons s rest ih =>
    intro acc
    unfold minAcc
    by_cases hlt : f s < acc.2
    · rw [if_pos hlt]
      obtain ⟨h1, h2⟩ := ih (s, f s)
      refine ⟨le_trans h1 (le_of_lt hlt), fun x hx => ?_⟩
      rcases List.mem_cons.mp hx with rfl | hx
      · exact h1
      · exact h2 x hx
    · rw [if_neg hlt]
      obtain ⟨h1, h2⟩ := ih acc
      refine ⟨h1, fun x hx => ?_⟩
      rcases List.mem_cons.mp hx with rfl | hx
      · exact le_trans h1 (not_lt.mp hlt)
      · exact h2 x hx

/-- The running-minimum fold keeps the accumulator unless some candidate is
strictly smaller, in which case it returns the first such strict improvement
(ties lose to earlier occurrences). -/
theorem minAcc_first (f : Nat → Nat) :
    ∀ (l : List Nat) (acc : Nat × Nat),
      (minAcc f l acc = acc ∧ ∀ s ∈ l, acc.2 ≤ f s)
      ∨ (∃ pre r post, l = pre ++ r :: post ∧ minAcc f l acc = (r, f r) ∧
          f r < acc.2 ∧ ∀ s ∈ pre, f r < f s) := by
  intro l
  induction l with
  | nil => intro acc; exact Or.inl ⟨rfl, by simp⟩
  | cons s rest ih =>
    intro acc
    by_cases hlt : f s < acc.2
    · rcases ih (s, f s) with ⟨heq, hall⟩ | ⟨pre, r, post, hsplit, heq, hr, hpre⟩
      · refine Or.inr ⟨[], s, rest, rfl, ?_, hlt, by simp⟩
        simpa [minAcc, if_pos hlt] using heq
      · refine Or.inr ⟨s :: pre, r, post, by rw [hsplit, List.cons_append], ?_, lt_trans hr hlt, fun x hx => ?_⟩
        · simpa [minAcc, if_pos hlt] using heq
        · rcases List.mem_cons.mp hx with rfl | hx
          · exact hr
          · exact hpre x hx
    · rcases ih acc with ⟨heq, hall⟩ | ⟨pre, r, post, hsplit, heq, hr, hpre⟩
      · refine Or.inl ⟨?_, fun x hx => ?_⟩
        · simpa [minAcc, if_neg hlt] using heq
        · rcases List.mem_cons.mp hx with rfl | hx
          · exact not_lt.mp hlt
          · exact hall x hx
      · refine Or.inr ⟨s :: pre, r, post, by rw [hsplit, List.cons_append], ?_, hr, fun x hx => ?_⟩
        · simpa [minAcc, if_neg hlt] using heq
        · rcases List.mem_cons.mp hx with rfl | hx
          · exact lt_of_lt_of_le hr (not_lt.mp hlt)
          · exact hpre x hx

/-- If every candidate before the first failing one resolves, the loop
propagates that first failure. -/
theorem find_loop_error (ms : Mappings) (fuel : Nat) (e : DayError) :
    ∀ (pre : List Nat) (sbad : Nat) (post : List Nat) (acc : Nat × Nat),
      (∀ s ∈ pre, ∃ v, lookup_seed_location ms fuel s = some (.ok v)) →
      lookup_seed_location ms fuel sbad = some (.error e) →
      find_loop ms fuel (pre ++ sbad :: post) acc = some (.error e) := by
  intro pre
  induction pre with
  | nil =>
    intro sbad post acc _ hbad
    simp [find_loop, hbad]
  | cons s pre ih =>
    intro sbad post acc hpre hbad
    obtain ⟨v, hv⟩ := hpre s (List.mem_cons_self s pre)
    simp only [List.cons_append, find_loop, hv]
    by_cases hlt : v < acc.2
    · rw [if_pos hlt]
      exact ih sbad post (s, v) (fun x hx => hpre x (List.mem_cons_of_mem s hx)) hbad
    · rw [if_neg hlt]
      exact ih sbad post acc (fun x hx => hpre x (List.mem_cons_of_mem s hx)) hbad

/-- C1: on the empty candidate list `find_seed_with_smallest_location` fails
with the no-candidates error; when every candidate resolves, it returns the
candidate whose location is globally smallest, with the first-seen candidate
winning ties (every earlier candidate has a strictly larger location); and
when the candidates up to some failing one resolve, that first failure is
propagated. -/
theorem find_seed_with_smallest_location_spec (ms : Mappings) (fuel : Nat) :
    find_seed_with_smallest_location ms fuel [] = some (.error .noSeeds)
    ∧ (∀ (seeds : List Nat) (f : Nat → Nat), seeds ≠ [] →
        (∀ s ∈ seeds, lookup_seed_location ms fuel s = some (.ok (f s))) →
        ∃ pre r post, seeds = pre ++ r :: post
          ∧ find_seed_with_smallest_location ms fuel seeds = some (.ok r)
          ∧ (∀ s ∈ pre, f r < f s) ∧ (∀ s ∈ seeds, f r ≤ f s))
    ∧ (∀ (pre : List Nat) (sbad : Nat) (post : List Nat) (e : DayError),
        (∀ s ∈ pre, ∃ v, lookup_seed_location ms fuel s = some (.ok v)) →
        lookup_seed_location ms fuel sbad = some (.error e) →
        find_seed_with_smallest_location ms fuel (pre ++ sbad :: post) = some (.error e)) := by
  refine ⟨rfl, ?_, ?_⟩
  · intro seeds f hne hres
    match seeds with
    | [] => exact absurd rfl hne
    | s0 :: rest =>
      have hs0 := hres s0 (List.mem_cons_self s0 rest)
      have hrest : ∀ s ∈ rest, lookup_seed_location ms fuel s = some (.ok (f s)) :=
        fun x hx => hres x (List.mem_cons_of_mem s0 hx)
      have hloop := find_loop_eq_minAcc ms fuel f rest (s0, f s0) hrest
      have hfind : find_seed_with_smallest_location ms fuel (s0 :: rest)
          = some (.ok ((minAcc f rest (s0, f s0)).1)) := by
        simp only [find_seed_with_smallest_location, hs0, hloop]
      rcases minAcc_first f rest (s0, f s0) with ⟨heq, hall⟩ | ⟨pre, r, post, hsplit, heq, hr, hpre⟩
      · refine ⟨[], s0, rest, rfl, by rw [hfind, heq], by simp, fun x hx => ?_⟩
        rcases List.mem_cons.mp hx with rfl | hx
        · exact le_refl _
        · exact hall x hx
      · obtain ⟨hmin_acc, hmin_rest⟩ := minAcc_snd_min f rest (s0, f s0)
        rw [heq] at hmin_acc hmin_rest
        refine ⟨s0 :: pre, r, post, by rw [hsplit, List.cons_append], by rw [hfind, heq], fun x hx => ?_, fun x hx => ?_⟩
        · rcases List.mem_cons.mp hx with rfl | hx
          · exact hr
          · exact hpre x hx
        · rcases List.mem_cons.mp hx with rfl | hx
          · exact hmin_acc
          · exact hmin_rest x hx
  · intro pre sbad post e hpre hbad
    match pre, hpre with
    | [], _ =>
      simp [find_seed_with_smallest_location, hbad]
    | s0 :: pre, hpre =>
      obtain ⟨v, hv⟩ := hpre s0 (List.mem_cons_self s0 pre)
      simp only [List.cons_append, find_seed_with_smallest_location, hv]
      exact find_loop_error ms fuel e pre sbad post (s0, v)
        (fun x hx => hpre x (List.mem_cons_of_mem s0 hx)) hbad

/-- Witness for C1 at a concrete chain and candidate list: on the identity
one-step chain, the list [5, 3, 3] selects the first-seen 3. -/
theorem find_seed_with_smallest_location_spec_witness :
    ∃ pre r post, ([5, 3, 3] : List Nat) = pre ++ r :: post
      ∧ find_seed_with_smallest_location oneStep 1 [5, 3, 3] = some (.ok r)
      ∧ (∀ s ∈ pre, (fun s => s) r < (fun s => s) s)
      ∧ (∀ s ∈ ([5, 3, 3] : List Nat), (fun s => s) r ≤ (fun s => s) s) :=
  (find_seed_with_smallest_location_spec oneStep 1).2.1 [5, 3, 3] (fun s => s)
    (by decide) (fun s _ => rfl)

/-- A successfully parsed digit block is below `2 ^ 64`. -/
theorem parseU64Body_lt (cs : List Char) (n : Nat) (h : parseU64Body cs = some n) :
    n < 2 ^ 64 := by
  unfold parseU64Body at h
  split at h
  · exact Option.noConfusion h
  · split at h
    · exact Option.noConfusion h
    · split at h
      · exact Option.some.inj h ▸ ‹_›
      · exact Option.noConfusion h

/-- A successfully parsed u64 token is below `2 ^ 64`. -/
theorem parseU64_lt (cs : List Char) (n : Nat) (h : parseU64 cs = some n) : n < 2 ^ 64 := by
  unfold parseU64 at h
  split at h
  · exact parseU64Body_lt _ _ h
  · exact parseU64Body_lt _ _ h

/-- Characterization of `Mapping.from_str`: it succeeds exactly on lines of
exactly three whitespace-separated u64 tokens, and then stores the half-open
range from the source start to the (wrapping) u64 sum of source start and
length, with the given destination start. -/
theorem from_str_ok_iff (s : String) (m : Mapping) :
    Mapping.from_str s = .ok m ↔
    ∃ p0 p1 p2 d ss len, split_ascii_whitespace s.data = [p0, p1, p2]
      ∧ parseU64 p0 = some d ∧ parseU64 p1 = some ss ∧ parseU64 p2 = some len
      ∧ m = ⟨ss, (ss + len) % 2 ^ 64, d⟩ := by
  constructor
  · intro h
    unfold Mapping.from_str at h
    split at h
    next x p0 p1 p2 hsp =>
      split at h
      next => exact Except.noConfusion h
      next y d h0 =>
        split at h
        next => exact Except.noConfusion h
        next z ss h1 =>
          split at h
          next => exact Except.noConfusion h
          next w len h2 =>
            exact ⟨p0, p1, p2, d, ss, len, hsp, h0, h1, h2, (Except.ok.inj h).symm⟩
    next => exact Except.noConfusion h
  · rintro ⟨p0, p1, p2, d, ss, len, hsp, h0, h1, h2, rfl⟩
    simp only [Mapping.from_str, hsp, h0, h1, h2]

/-- C6 counterexample: a mapping line whose length field is zero is accepted
by `Mapping::from_str` (yielding the empty source range `[98, 98)`), not
rejected with an error. -/
theorem from_str_zero_length_accepted :
    Mapping.from_str "50 98 0" = .ok ⟨98, 98, 50⟩
    ∧ ¬ ∃ e, Mapping.from_str "50 98 0" = .error e := by
  refine ⟨rfl, ?_⟩
  rintro ⟨e, he⟩
  rw [show Mapping.from_str "50 98 0" = .ok ⟨98, 98, 50⟩ from rfl] at he
  exact Except.noConfusion he

/-- C6 amended: `Mapping.from_str` fails exactly when the line is not exactly
three whitespace-separated u64 tokens (a zero length is accepted, giving an
empty source range); on success it stores the range from the source start to
the u64 sum of source start and length, with the given destination start. -/
theorem from_str_characterization :
    (∀ (s : String) (m : Mapping), Mapping.from_str s = .ok m ↔
      ∃ p0 p1 p2 d ss len, split_ascii_whitespace s.data = [p0, p1, p2]
        ∧ parseU64 p0 = some d ∧ parseU64 p1 = some ss ∧ parseU64 p2 = some len
        ∧ m = ⟨ss, (ss + len) % 2 ^ 64, d⟩)
    ∧ Mapping.from_str "50 98" = .error .badMappingParts :=
  ⟨from_str_ok_iff, rfl⟩

/-- C9: on a line of three u64 tokens whose source start plus length exceeds
`2 ^ 64 - 1`, `Mapping.from_str` does not fail; the stored exclusive range
end is the wrapped sum `(source_start + length) % 2 ^ 64`, which has
overflowed below the range start. -/
theorem from_str_overflow (s : String) (p0 p1 p2 : List Char) (d ss len : Nat)
    (hsp : split_ascii_whitespace s.data = [p0, p1, p2])
    (h0 : parseU64 p0 = some d) (h1 : parseU64 p1 = some ss)
    (h2 : parseU64 p2 = some len) (hov : 2 ^ 64 - 1 < ss + len) :
    Mapping.from_str s = .ok ⟨ss, (ss + len) % 2 ^ 64, d⟩
    ∧ (ss + len) % 2 ^ 64 < ss := by
  constructor
  · exact (from_str_ok_iff s _).mpr ⟨p0, p1, p2, d, ss, len, hsp, h0, h1, h2, rfl⟩
  · have hss := parseU64_lt p1 ss h1
    have hlen := parseU64_lt p2 len h2
    have hge : 2 ^ 64 ≤ ss + len := by omega
    have : (ss + len) % 2 ^ 64 = ss + len - 2 ^ 64 := by
      rw [Nat.mod_eq_sub_mod hge, Nat.mod_eq_of_lt (by omega)]
    omega

/-- Witness for C9: the line `"5 18446744073709551615 2"` is accepted and its
stored range end wraps to 1, below its range start. -/
theorem from_str_overflow_witness :
    2 ^ 64 - 1 < 18446744073709551615 + 2
    ∧ Mapping.from_str "5 18446744073709551615 2"
        = .ok ⟨18446744073709551615, (18446744073709551615 + 2) % 2 ^ 64, 5⟩
    ∧ (18446744073709551615 + 2) % 2 ^ 64 < 18446744073709551615 :=
  ⟨by decide,
   (from_str_overflow "5 18446744073709551615 2" ("5".data)
      ("18446744073709551615".data) ("2".data) 5 18446744073709551615 2
      rfl rfl rfl rfl (by decide)).1,
   (from_str_overflow "5 18446744073709551615 2" ("5".data)
      ("18446744073709551615".data) ("2".data) 5 18446744073709551615 2
      rfl rfl rfl rfl (by decide)).2⟩

/-- Taking everything but a suffix of known length recovers the prefix. -/
theorem take_strip_suffix (pre sfx : List Char) :
    (pre ++ sfx).take ((pre ++ sfx).length - sfx.length) = pre := by
  rw [List.length_append, Nat.add_sub_cancel, List.take_left]

/-- `endsWithList` detects exactly the suffix decompositions. -/
theorem endsWithList_iff (pat l : List Char) :
    endsWithList pat l = true ↔ ∃ pre, l = pre ++ pat := by
  unfold endsWithList
  rw [decide_eq_true_eq]
  constructor
  · rintro ⟨hle, hdrop⟩
    refine ⟨l.take (l.length - pat.length), ?_⟩
    nth_rewrite 1 [← List.take_append_drop (l.length - pat.length) l]
    rw [hdrop]
  · rintro ⟨pre, rfl⟩
    refine ⟨by simp [List.length_append], ?_⟩
    rw [List.length_append, Nat.add_sub_cancel, List.drop_left]

/-- The split of a character list is never the empty list of pieces. -/
theorem splitPred_ne_nil (p : Char → Bool) : ∀ l, splitPred p l ≠ [] := by
  intro l
  cases l with
  | nil => simp [splitPred]
  | cons x xs =>
    unfold splitPred
    cases hp : p x
    · cases hs : splitPred p xs <;> simp
    · simp

/-- Splitting a list with no separator yields the single piece. -/
theorem splitPred_no_sep (p : Char → Bool) :
    ∀ l, (∀ x ∈ l, p x = false) → splitPred p l = [l] := by
  intro l
  induction l with
  | nil => intro _; rfl
  | cons x xs ih =>
    intro h
    have hx := h x (List.mem_cons_self x xs)
    have hxs := ih fun y hy => h y (List.mem_cons_of_mem x hy)
    simp [splitPred, hx, hxs]

/-- Splitting at the first separator after a separator-free prefix peels off
that prefix as the first piece. -/
theorem splitPred_append_sep (p : Char → Bool) :
    ∀ (a : List Char) (c : Char) (rest : List Char),
      (∀ x ∈ a, p x = false) → p c = true →
      splitPred p (a ++ c :: rest) = a :: splitPred p rest := by
  intro a
  induction a with
  | nil => intro c rest _ hc; simp [splitPred, hc]
  | cons x a ih =>
    intro c rest h hc
    have hx := h x (List.mem_cons_self x a)
    have ha := ih c rest (fun y hy => h y (List.mem_cons_of_mem x hy)) hc
    simp [splitPred, hx, ha]

/-- Joining the pieces of `splitOnChar` with the separator recovers the list,
and no piece contains the separator. -/
theorem splitOnChar_join (c : Char) :
    ∀ l, joinParts c (splitOnChar c l) = l ∧ ∀ part ∈ splitOnChar c l, c ∉ part := by
  intro l
  induction l with
  | nil =>
    refine ⟨rfl, fun part hp => ?_⟩
    have : part = [] := by simpa [splitOnChar, splitPred] using hp
    simp [this]
  | cons x xs ih =>
    obtain ⟨hjoin, hparts⟩ := ih
    by_cases hx : x = c
    · have hsplit : splitOnChar c (x :: xs) = [] :: splitOnChar c xs := by
        simp [splitOnChar, splitPred, hx]
      refine ⟨?_, ?_⟩
      · rw [hsplit]
        cases hs : splitOnChar c xs with
        | nil => exact absurd hs (splitPred_ne_nil _ xs)
        | cons t ts =>
          rw [hs] at hjoin
          show c :: joinParts c (t :: ts) = x :: xs
          rw [hjoin, hx]
      · rw [hsplit]
        intro part hp
        rcases List.mem_cons.mp hp with rfl | hp
        · simp
        · exact hparts part hp
    · cases hs : splitOnChar c xs with
      | nil => exact absurd hs (splitPred_ne_nil _ xs)
      | cons t ts =>
        have hsplit : splitOnChar c (x :: xs) = (x :: t) :: ts := by
          simp [splitOnChar, splitPred, hx]
          rw [show splitPred (fun z => decide (z = c)) xs = t :: ts from hs]
        rw [hs] at hjoin hparts
        refine ⟨?_, ?_⟩
        · rw [hsplit]
          cases ts with
          | nil =>
            simp only [joinParts] at hjoin ⊢
            rw [hjoin]
          | cons t2 ts2 =>
            simp only [joinParts] at hjoin ⊢
            rw [List.cons_append, hjoin]
        · rw [hsplit]
          intro part hp
          rcases List.mem_cons.mp hp with rfl | hp
          · have hct : c ∉ t := hparts t (List.mem_cons_self t ts)
            intro hmem
            rcases List.mem_cons.mp hmem with heq | hmem2
            · exact hx heq.symm
            · exact hct hmem2
          · exact hparts part (List.mem_cons_of_mem t hp)

/-- Characterization of `parse_map_header`: it succeeds with `(s, d)` exactly
when the line is `s ++ "-to-" ++ d ++ " map:"` for hyphen-free `s` and `d`
(no validation of non-emptiness or distinctness is performed). -/
theorem parse_map_header_ok_iff (line s d : String) :
    parse_map_header line = .ok (s, d) ↔
    (line = s ++ "-to-" ++ d ++ " map:" ∧ '-' ∉ s.data ∧ '-' ∉ d.data) := by
  constructor
  · intro h
    unfold parse_map_header at h
    split at h
    case isTrue hend =>
      obtain ⟨pre, hpre⟩ := (endsWithList_iff (" map:".data) line.data).mp hend
      rw [hpre, take_strip_suffix] at h
      split at h
      next x p0 p1 p2 hsp =>
        split at h
        case isTrue hp1 =>
          obtain ⟨hjoin, hparts⟩ := splitOnChar_join '-' pre
          rw [hsp] at hjoin hparts
          have hpair := Except.ok.inj h
          rw [Prod.ext_iff] at hpair
          obtain ⟨hs', hd'⟩ := hpair
          have hs2 : String.mk p0 = s := hs'
          have hd2 : String.mk p2 = d := hd'
          subst hp1
          refine ⟨?_, ?_, ?_⟩
          · apply String.ext
            rw [← hs2, ← hd2, hpre, ← hjoin]
            show _ = (String.mk p0).data ++ "-to-".data ++ (String.mk p2).data ++ " map:".data
            have hbr : ("-to-".data : List Char) = '-' :: 't' :: 'o' :: '-' :: [] := rfl
            have hto : ("to".data : List Char) = 't' :: 'o' :: [] := rfl
            show joinParts '-' [p0, "to".data, p2] ++ " map:".data = _
            simp only [joinParts, hbr, hto]
            simp [List.append_assoc]
          · rw [← hs2]
            exact hparts p0 (List.mem_cons_self p0 _)
          · rw [← hd2]
            exact hparts p2 (by simp)
        case isFalse => exact Except.noConfusion h
      next => exact Except.noConfusion h
    case isFalse => exact Except.noConfusion h
  · rintro ⟨rfl, hs, hd⟩
    have hdata : (s ++ "-to-" ++ d ++ " map:").data
        = ((s.data ++ "-to-".data) ++ d.data) ++ " map:".data := by
      simp [String.data_append]
    have hpre2 : (s.data ++ "-to-".data) ++ d.data
        = s.data ++ '-' :: ("to".data ++ '-' :: d.data) := by
      have hbr : ("-to-".data : List Char) = '-' :: 't' :: 'o' :: '-' :: [] := rfl
      have hto : ("to".data : List Char) = 't' :: 'o' :: [] := rfl
      simp [hbr, hto]
    have hsplit : splitOnChar '-' ((s.data ++ "-to-".data) ++ d.data)
        = [s.data, "to".data, d.data] := by
      rw [hpre2]
      unfold splitOnChar
      rw [splitPred_append_sep _ s.data '-' _
        (by intro x hx; apply decide_eq_false; intro he; subst he; exact hs hx) (by simp)]
      rw [splitPred_append_sep _ ("to".data) '-' _ (by decide) (by simp)]
      rw [splitPred_no_sep _ d.data
        (by intro x hx; apply decide_eq_false; intro he; subst he; exact hd hx)]
    have hend : endsWithList (" map:".data) ((s ++ "-to-" ++ d ++ " map:").data) = true := by
      rw [hdata]
      exact (endsWithList_iff _ _).mpr ⟨_, rfl⟩
    unfold parse_map_header
    rw [if_pos hend, hdata, take_strip_suffix, hsplit]
    rfl

/-- C8 counterexample: the line `"a-b-to-c map:"` has the claimed form
`"<source>-to-<destination> map:"` (source `"a-b"`, destination `"c"`) with
exactly one `"-to-"` separator, yet `parse_map_header` rejects it, because
the code splits on every hyphen and requires exactly three pieces. -/
theorem parse_map_header_form_rejected :
    headerSpecForm "a-b-to-c map:"
    ∧ parse_map_header "a-b-to-c map:" = .error .badHeaderFormat :=
  ⟨⟨"a-b", "c", rfl, rfl⟩, rfl⟩

/-- C8 amended: `parse_map_header` succeeds with `(source, destination)`
exactly when the line is `"<source>-to-<destination> map:"` with
hyphen-free source and destination (so a source or destination containing a
hyphen is rejected even though the line contains exactly one `"-to-"`), and
fails with a header error otherwise; in particular, `"seed to soil map:"`
is rejected. -/
theorem parse_map_header_ok_characterization :
    (∀ line s d : String, parse_map_header line = .ok (s, d) ↔
      (line = s ++ "-to-" ++ d ++ " map:" ∧ '-' ∉ s.data ∧ '-' ∉ d.data))
    ∧ parse_map_header "seed to soil map:" = .error .badHeaderFormat :=
  ⟨parse_map_header_ok_iff, rfl⟩

/-- C7 counterexample: header parsing yields a table description with an
empty source and destination on `"-to- map:"`, and one whose source equals
its destination on `"a-to-a map:"` — no non-emptiness or distinctness
invariant is enforced. -/
theorem parse_map_header_empty_names :
    parse_map_header "-to- map:" = .ok ("", "")
    ∧ parse_map_header "a-to-a map:" = .ok ("a", "a") :=
  ⟨rfl, rfl⟩

/-- C7 amended: `parse_map_header` accepts any hyphen-free source and
destination names verbatim — including empty names and a source equal to the
destination; the non-empty/distinct invariant is not checked anywhere in
ingestion. -/
theorem parse_map_header_no_name_validation (s d : String)
    (hs : '-' ∉ s.data) (hd : '-' ∉ d.data) :
    parse_map_header (s ++ "-to-" ++ d ++ " map:") = .ok (s, d) :=
  (parse_map_header_ok_iff (s ++ "-to-" ++ d ++ " map:") s d).mpr ⟨rfl, hs, hd⟩

/-- Witness for the amended C7 at the empty names. -/
theorem parse_map_header_no_name_validation_witness :
    ('-' ∉ ("" : String).data)
    ∧ parse_map_header ("" ++ "-to-" ++ "" ++ " map:") = .ok ("", "") :=
  ⟨by decide, parse_map_header_no_name_validation "" "" (by decide) (by decide)⟩
